import Mathlib

/-!
Shallow embedding of the `maildir` Go package (`src/maildir.go`) together
with a spec-side model of the delivery session, and proofs about the
claims of the specification.

Filenames are modelled as lists of characters (`Name`), file contents as
lists of bytes (`Content`).  A mailbox is the three directory listings
`tmp`, `new`, `cur`, each a list of (name, content) pairs in filesystem
enumeration order.  Functions that can panic in Go (index out of range)
return `Option`, with `none` marking the panic.  I/O failures that the
claims quantify over (a rename failing, a file failing to open, a parse
failing) are supplied as oracles, since the Go code receives them from
the operating system.
-/

set_option autoImplicit false

deriving instance DecidableEq for Except

namespace Maildir

/-- A filename, as a list of characters. -/
abbrev Name := List Char

/-- File contents, as a list of bytes. -/
abbrev Content := List Nat

/-- Helper to write concrete names. -/
def nm (s : String) : Name := s.toList

/-! ### `strings.FieldsFunc`

`strings.FieldsFunc(s, f)` splits `s` at each run of characters
satisfying `f` and returns the (possibly empty) list of the maximal
nonempty runs of characters not satisfying `f`.  Empty fields are
omitted; if every character satisfies `f` (or `s` is empty) the result
is the empty list. -/

/-- Accumulator-based splitting: `acc` holds the current field, reversed. -/
def fieldsAux (p : Char → Bool) : List Char → List Char → List Name
  | [], acc => if acc = [] then [] else [acc.reverse]
  | c :: cs, acc =>
    if p c then
      if acc = [] then fieldsAux p cs []
      else acc.reverse :: fieldsAux p cs []
    else fieldsAux p cs (c :: acc)

/-- `strings.FieldsFunc`. -/
def fieldsFunc (p : Char → Bool) (s : Name) : List Name := fieldsAux p s []

/-- The key-extraction step shared by `Unseen` and `Keys`:
`strings.FieldsFunc(n, r == sep)` followed by `split[0]`.
`none` models the Go panic (index out of range) when the field list is
empty, which happens exactly when `n` consists entirely of separator
characters. -/
def goKey (sep : Char) (n : Name) : Option Name :=
  (fieldsFunc (fun r => r = sep) n).head?

/-- The hidden-file test `n[0] == '.'` (Go panics on the empty name
before reaching this test; callers handle `[]` separately). -/
def hidden : Name → Bool
  | [] => false
  | c :: _ => c = '.'

/-- The flag suffix `"2,S"` appended by `Unseen` after the separator. -/
def seenSuffix : Name := ['2', ',', 'S']

/-! ### Mailbox state -/

/-- One maildir mailbox: the listings of its three subdirectories, in
filesystem enumeration order, together with each file's content. -/
structure MaildirState where
  tmp : List (Name × Content)
  new : List (Name × Content)
  cur : List (Name × Content)
deriving DecidableEq, Repr

/-- What `Dir.Unseen` hands back on its non-panicking path: the key
slice and the error value of the `return keys, nil` statement, plus the
mailbox state after the scan's renames. -/
structure UnseenResult where
  keys : List Name
  err : Option Unit
  state : MaildirState
deriving DecidableEq, Repr

/-! ### `Dir.Unseen`

The loop body of `Dir.Unseen` (`src/maildir.go:48-57`): for each entry
of `new`, skip hidden names, extract the key with `FieldsFunc`/`[0]`
(panic when no field exists), append the key, and attempt
`os.Rename(new/n, cur/n+string(Separator)+"2,S")`.  The value of
`os.Rename` is discarded by the source, so the rename outcome — given
here by the oracle `renameOk` — affects only the directories, never the
key slice and never the returned error.  The model assumes the `new`
directory was opened and listed successfully (the listing is the input);
`none` models a Go panic. -/
def unseenLoop (sep : Char) (renameOk : Name → Bool) :
    List (Name × Content) →
    Option (List Name × List (Name × Content) × List (Name × Content))
  | [] => some ([], [], [])
  | (n, c) :: rest =>
    match n with
    | [] => none
    | ch :: _ =>
      if ch = '.' then
        (unseenLoop sep renameOk rest).map
          (fun r => (r.1, (n, c) :: r.2.1, r.2.2))
      else
        match goKey sep n with
        | none => none
        | some k =>
          if renameOk n then
            (unseenLoop sep renameOk rest).map
              (fun r => (k :: r.1, r.2.1, (n ++ sep :: seenSuffix, c) :: r.2.2))
          else
            (unseenLoop sep renameOk rest).map
              (fun r => (k :: r.1, (n, c) :: r.2.1, r.2.2))

/-- `Dir.Unseen` (`src/maildir.go:37-59`).  `sep` is the process-wide
`Separator` variable, `renameOk` the outcome of each attempted
`os.Rename`. -/
def unseen (sep : Char) (renameOk : Name → Bool) (st : MaildirState) :
    Option UnseenResult :=
  (unseenLoop sep renameOk st.new).map
    (fun r =>
      { keys := r.1
        err := none
        state := { st with new := r.2.1, cur := st.cur ++ r.2.2 } })

/-! ### `Dir.Keys`

`Dir.Keys` (`src/maildir.go:62-82`) lists `cur` and extracts each
non-hidden entry's key.  Note that the source splits on the literal
rune `':'` here, not on the `Separator` variable — this asymmetry with
`Unseen` is preserved faithfully. -/
def keysLoop : List Name → Option (List Name)
  | [] => some []
  | n :: rest =>
    match n with
    | [] => none
    | ch :: _ =>
      if ch = '.' then keysLoop rest
      else
        match goKey ':' n with
        | none => none
        | some k => (keysLoop rest).map (fun ks => k :: ks)

/-- `Dir.Keys` on a mailbox state (assumes `cur` was opened and listed
successfully; `none` models a Go panic). -/
def keysGo (st : MaildirState) : Option (List Name) :=
  keysLoop (st.cur.map Prod.fst)

/-! ### `path/filepath` pattern matching

`Dir.Filename` calls `filepath.Glob(filepath.Join(dir, "cur", key+"*"))`.
Glob reads the `cur` directory and keeps the names matched by
`filepath.Match` against the pattern `key+"*"`; a malformed pattern
yields `ErrBadPattern`.  The pattern grammar: `*` matches any run of
non-`/` characters, `?` one non-`/` character, `[...]`/`[^...]` a
character class of ranges, `\c` the literal `c`, any other character
itself.  We model the pattern language in full; the directory part of
the path is taken as literal (the mailbox path contains no
metacharacters in every claim considered), and pattern well-formedness
is checked up front, matching Go's documented contract that a malformed
pattern reports `ErrBadPattern`.  Glob sorts the matched names, which
cannot affect any claim here: the match count is order-independent and a
single match is its own first element. -/

/-- `getEsc` of `filepath.matchChunk`: reads one (possibly escaped)
character of a class, rejecting `-`, `]`, a dangling `\`, and the empty
chunk. -/
def getEsc : List Char → Option (Char × List Char)
  | [] => none
  | '-' :: _ => none
  | ']' :: _ => none
  | '\\' :: rest =>
    match rest with
    | [] => none
    | c :: rest2 => some (c, rest2)
  | c :: rest => some (c, rest)

/-- One character range `lo` or `lo-hi` of a class. -/
def parseRange (cs : List Char) : Option ((Char × Char) × List Char) :=
  match getEsc cs with
  | none => none
  | some (lo, rest) =>
    match rest with
    | '-' :: rest2 =>
      match getEsc rest2 with
      | none => none
      | some (hi, rest3) => some ((lo, hi), rest3)
    | _ => some ((lo, lo), rest)

/-- The ranges of a class, up to and including the closing `]` (which is
only accepted after at least one range, as in Go).  The fuel is an
implementation device: each step consumes at least one character, so
`cs.length + 1` steps always suffice. -/
def parseClassAux : Nat → List Char → List (Char × Char) →
    Option (List (Char × Char) × List Char)
  | 0, _, _ => none
  | fuel + 1, cs, acc =>
    match cs with
    | ']' :: rest => if acc = [] then none else some (acc.reverse, rest)
    | _ =>
      match parseRange cs with
      | none => none
      | some (r, rest) => parseClassAux fuel rest (r :: acc)

/-- A full character class after the opening `[`: optional negation
`^`, then the ranges and the closing `]`. -/
def parseClass (cs : List Char) : Option (Bool × List (Char × Char) × List Char) :=
  match cs with
  | '^' :: rest =>
    (parseClassAux (rest.length + 1) rest []).map (fun r => (true, r.1, r.2))
  | _ =>
    (parseClassAux (cs.length + 1) cs []).map (fun r => (false, r.1, r.2))

/-- Membership of a character in a list of ranges. -/
def inClass (rs : List (Char × Char)) (d : Char) : Bool :=
  rs.any (fun r => decide (r.1 ≤ d) && decide (d ≤ r.2))

/-- The matching semantics of `filepath.Match` on a well-formed pattern,
by naive backtracking (equivalent to Go's chunked scan with star
backtracking).  Structural recursion on fuel; every recursive call
strictly shrinks `pattern.length + s.length`, so the wrapper's fuel of
`pattern.length + s.length + 1` always suffices. -/
def pmStep : Nat → List Char → List Char → Bool
  | 0, _, _ => false
  | fuel + 1, pat, s =>
    match pat with
    | [] => s.isEmpty
    | c :: p =>
      if c = '*' then
        pmStep fuel p s ||
          (match s with
           | [] => false
           | d :: s2 => !(d = '/' : Bool) && pmStep fuel pat s2)
      else if c = '?' then
        match s with
        | [] => false
        | d :: s2 => !(d = '/' : Bool) && pmStep fuel p s2
      else if c = '\\' then
        match p with
        | [] => false
        | e :: p2 =>
          match s with
          | [] => false
          | d :: s2 => (e = d : Bool) && pmStep fuel p2 s2
      else if c = '[' then
        match s with
        | [] => false
        | d :: s2 =>
          match parseClass p with
          | none => false
          | some (neg, rs, p2) => (inClass rs d != neg) && pmStep fuel p2 s2
      else
        match s with
        | [] => false
        | d :: s2 => (c = d : Bool) && pmStep fuel p s2

/-- `filepath.Match` on a well-formed pattern. -/
def pureMatch (pat s : List Char) : Bool :=
  pmStep (pat.length + s.length + 1) pat s

/-- Pattern well-formedness: every `\` escapes a character and every `[`
opens a syntactically valid class.  Fueled like `pmStep`; each step
consumes at least one pattern character. -/
def pwfStep : Nat → List Char → Bool
  | 0, _ => false
  | fuel + 1, pat =>
    match pat with
    | [] => true
    | c :: p =>
      if c = '\\' then
        match p with
        | [] => false
        | _ :: p2 => pwfStep fuel p2
      else if c = '[' then
        match parseClass p with
        | none => false
        | some (_, _, p2) => pwfStep fuel p2
      else pwfStep fuel p

/-- Well-formedness of a `filepath.Match` pattern. -/
def patWellFormed (pat : List Char) : Bool :=
  pwfStep (pat.length + 1) pat

/-- A name free of the four pattern metacharacters of `filepath.Match`. -/
def metaFree (n : Name) : Bool :=
  n.all (fun c => !(c = '*' : Bool) && !(c = '?' : Bool) &&
    !(c = '[' : Bool) && !(c = '\\' : Bool))

/-- A name containing no path separator `/` (true of every directory
entry the operating system can produce). -/
def noSlash (n : Name) : Bool := n.all (fun c => !(c = '/' : Bool))

/-! ### `Dir.Filename` -/

/-- The errors `Dir.Filename` can return: `filepath.Glob`'s
`ErrBadPattern`, or the package's `KeyError{Key, N}`. -/
inductive FileErr where
  | badPattern
  | keyError (key : Name) (n : Nat)
deriving DecidableEq, Repr

/-- `Dir.Filename` (`src/maildir.go:85-94`): glob `cur/<key>*`, demand
exactly one match, return it.  The model matches names of the given
`cur` listing (Glob reads the directory itself; hidden entries are not
exempt from matching). -/
def filenameGo (st : MaildirState) (key : Name) : Except FileErr Name :=
  if patWellFormed (key ++ ['*']) then
    match (st.cur.map Prod.fst).filter (fun n => pureMatch (key ++ ['*']) n) with
    | [m] => .ok m
    | ms => .error (.keyError key ms.length)
  else .error .badPattern

/-! ### `Dir.Header` and `Dir.Message`

Both resolve the key with `Filename`, open the resulting `cur` path,
and hand the bytes to `net/textproto` / `net/mail`.  The parsers are
external collaborators, supplied as oracles; `os.Open` and `io.Copy`
failures are likewise oracles.  Neither function writes to the
filesystem, so the embedding is a state transformer that returns the
state it was given, exactly as the source performs no mutating call. -/

/-- First content stored under a name in a directory listing. -/
def lookupFile : List (Name × Content) → Name → Option Content
  | [], _ => none
  | (n, c) :: rest, m => if n = m then some c else lookupFile rest m

/-- Errors of `Dir.Header`: the `Filename` error, an `os.Open` failure,
or the `ReadMIMEHeader` parse failure. -/
inductive HdrErr (E : Type) where
  | file (e : FileErr)
  | io
  | parse (e : E)
deriving DecidableEq, Repr

/-- Errors of `Dir.Message`: the `Filename` error, an `os.Open`
failure, an `io.Copy` failure, or the `mail.ReadMessage` parse
failure. -/
inductive MsgErr (E : Type) where
  | file (e : FileErr)
  | io
  | ioRead
  | parse (e : E)
deriving DecidableEq, Repr

/-- `Dir.Header` (`src/maildir.go:97-114`).  `openOk` is the outcome of
`os.Open` on the resolved path, `readMIME` the external
`textproto.ReadMIMEHeader` collaborator. -/
def headerGo {E H : Type} (openOk : Name → Bool)
    (readMIME : Content → Except E H) (st : MaildirState) (key : Name) :
    Except (HdrErr E) H × MaildirState :=
  match filenameGo st key with
  | .error e => (.error (.file e), st)
  | .ok n =>
    if openOk n then
      match lookupFile st.cur n with
      | none => (.error .io, st)
      | some content =>
        match readMIME content with
        | .error e => (.error (.parse e), st)
        | .ok h => (.ok h, st)
    else (.error .io, st)

/-- `Dir.Message` (`src/maildir.go:117-137`).  `openOk` is the outcome
of `os.Open`, `readOk` the outcome of the `io.Copy` into the buffer,
`readMessage` the external `mail.ReadMessage` collaborator. -/
def messageGo {E M : Type} (openOk readOk : Name → Bool)
    (readMessage : Content → Except E M) (st : MaildirState) (key : Name) :
    Except (MsgErr E) M × MaildirState :=
  match filenameGo st key with
  | .error e => (.error (.file e), st)
  | .ok n =>
    if openOk n then
      match lookupFile st.cur n with
      | none => (.error .io, st)
      | some content =>
        if readOk n then
          match readMessage content with
          | .error e => (.error (.parse e), st)
          | .ok m => (.ok m, st)
        else (.error .ioRead, st)
    else (.error .io, st)

/-- `Dir.Keys` as a state transformer: the source opens and reads only
`cur` and performs no mutating call. -/
def keysOp (st : MaildirState) : Option (List Name) × MaildirState :=
  (keysGo st, st)

/-- `Dir.Filename` as a state transformer: the source only globs under
`cur` and performs no mutating call. -/
def filenameOp (st : MaildirState) (key : Name) :
    Except FileErr Name × MaildirState :=
  (filenameGo st key, st)

/-! ### The delivery session

Modelled from the spec: `Dir.Create`, `Dir.NewDelivery`,
`Delivery.Write` and `Delivery.Close` are not under `src/` — only the
test file (`src/unnamed/part_000`, `makeDelivery`) calls them.  Per
§4.2 of the spec: `Begin` opens (creates, exclusive) `tmp/<key>` for a
fresh key and fails if the file already exists; `Write` appends the
bytes verbatim to the staged file; `Close` performs a single atomic
rename from `tmp/<key>` to `new/<key>`. -/

/-- Modelled from the spec: `Dir.NewDelivery` — exclusive creation of
the staged file `tmp/<key>` (§4.2 `Begin`). -/
def newDelivery (key : Name) (st : MaildirState) : Except Unit MaildirState :=
  if (st.tmp.map Prod.fst).contains key then .error ()
  else .ok { st with tmp := st.tmp ++ [(key, [])] }

/-- Modelled from the spec: `Delivery.Write` — append the payload bytes
to the staged file, no transformation (§4.2 `Write`). -/
def deliveryWrite (key : Name) (bs : Content) (st : MaildirState) :
    Except Unit MaildirState :=
  match lookupFile st.tmp key with
  | none => .error ()
  | some c =>
    .ok { st with
          tmp := st.tmp.map (fun p => if p.1 = key then (p.1, c ++ bs) else p) }

/-- Modelled from the spec: `Delivery.Close` — the commit: one atomic
rename from `tmp/<key>` to `new/<key>` (§4.2 `Close`). -/
def deliveryClose (key : Name) (st : MaildirState) : Except Unit MaildirState :=
  match lookupFile st.tmp key with
  | none => .error ()
  | some c =>
    .ok { st with
          tmp := st.tmp.filter (fun p => !(p.1 = key : Bool))
          new := st.new ++ [(key, c)] }

/-- Modelled from the spec: the test helper `makeDelivery`
(`src/unnamed/part_000:52-68`): `NewDelivery`, one `Write` of the whole
payload, then `Close`. -/
def makeDelivery (key : Name) (msg : Content) (st : MaildirState) :
    Except Unit MaildirState :=
  match newDelivery key st with
  | .error e => .error e
  | .ok st1 =>
    match deliveryWrite key msg st1 with
    | .error e => .error e
    | .ok st2 => deliveryClose key st2

/-! ## Lemmas about the embedding -/

/-- Splitting a list containing no separator at all yields that list as
the single field (or nothing, when both accumulator and list are
empty). -/
theorem fieldsAux_of_forall_not (p : Char → Bool) :
    ∀ (l acc : List Char), (∀ c ∈ l, p c = false) →
    fieldsAux p l acc = if acc = [] ∧ l = [] then [] else [acc.reverse ++ l] := by
  intro l
  induction l with
  | nil =>
    intro acc _
    by_cases hacc : acc = [] <;> simp [fieldsAux, hacc]
  | cons c cs ih =>
    intro acc h
    have hc : p c = false := h c (List.mem_cons_self c cs)
    have hcs : ∀ x ∈ cs, p x = false := fun x hx => h x (List.mem_cons_of_mem c hx)
    simp only [fieldsAux, hc, Bool.false_eq_true, if_false,
      ih (c :: acc) hcs, List.reverse_cons, List.append_assoc]
    simp

/-- Key extraction on a name free of the separator returns the whole
name: `FieldsFunc` produces the one field `n`. -/
theorem goKey_no_sep (sep : Char) (key : Name) (h0 : key ≠ [])
    (h : ∀ c ∈ key, c ≠ sep) : goKey sep key = some key := by
  unfold goKey fieldsFunc
  rw [fieldsAux_of_forall_not _ key [] (fun c hc => by simp [h c hc])]
  simp [h0]

/-- Master description of the `Unseen` scan loop: provided no entry
name is empty and every non-hidden entry name has at least one
non-separator character (the conditions under which Go does not panic),
the loop returns the keys of all non-hidden entries in enumeration
order — regardless of rename outcomes — while entries that are hidden
or whose rename failed stay in `new`, and successfully renamed entries
move to `cur` under `name ++ sep ++ "2,S"`. -/
theorem unseenLoop_eq (sep : Char) (ro : Name → Bool) :
    ∀ l : List (Name × Content),
    (∀ p ∈ l, p.1 ≠ []) →
    (∀ p ∈ l, hidden p.1 = false → (goKey sep p.1).isSome) →
    unseenLoop sep ro l = some
      ((l.filter (fun p => !hidden p.1)).map (fun p => (goKey sep p.1).getD []),
       l.filter (fun p => hidden p.1 || !ro p.1),
       (l.filter (fun p => !hidden p.1 && ro p.1)).map
         (fun p => (p.1 ++ sep :: seenSuffix, p.2))) := by
  intro l
  induction l with
  | nil => intro _ _; rfl
  | cons hd rest ih =>
    intro h1 h2
    obtain ⟨n, c⟩ := hd
    have hrec := ih (fun p hp => h1 p (List.mem_cons_of_mem _ hp))
      (fun p hp => h2 p (List.mem_cons_of_mem _ hp))
    have hn : n ≠ [] := h1 (n, c) (List.mem_cons_self _ _)
    cases n with
    | nil => exact absurd rfl hn
    | cons ch tl =>
      by_cases hch : ch = '.'
      · have hh : hidden (ch :: tl) = true := by simp [hidden, hch]
        simp only [unseenLoop, hch, if_pos rfl, hrec, Option.map_some]
        simp [List.filter_cons, hidden]
      · have hh : hidden (ch :: tl) = false := by simp [hidden, hch]
        have hsome := h2 (ch :: tl, c) (List.mem_cons_self _ _) hh
        obtain ⟨k, hk⟩ := Option.isSome_iff_exists.mp hsome
        by_cases hro : ro (ch :: tl)
        · simp only [unseenLoop, hch, if_neg hch, hk, hro, if_pos rfl, hrec,
            Option.map_some]
          simp [List.filter_cons, hh, hro, hk]
        · simp only [unseenLoop, hch, if_neg hch, hk, hro, hrec,
            Option.map_some]
          simp [List.filter_cons, hh, hro, hk]

/-- One step of the matcher on an empty pattern. -/
theorem pmStep_nil_pat (fuel : Nat) (s : Name) (h : 1 ≤ fuel) :
    pmStep fuel [] s = s.isEmpty := by
  obtain ⟨f, rfl⟩ : ∃ f, fuel = f + 1 := ⟨fuel - 1, by omega⟩
  rfl

/-- One step of the matcher on a star. -/
theorem pmStep_star_succ (fuel : Nat) (p : List Char) (s : Name) :
    pmStep (fuel + 1) ('*' :: p) s =
      (pmStep fuel p s ||
        (match s with
         | [] => false
         | d :: s2 => !(d = '/' : Bool) && pmStep fuel ('*' :: p) s2)) := by
  simp only [pmStep]
  simp only [if_pos]
  rfl

/-- One step of the matcher on an ordinary literal character. -/
theorem pmStep_lit_succ (fuel : Nat) (c : Char) (p : List Char) (s : Name)
    (hc1 : ¬ c = '*') (hc2 : ¬ c = '?') (hc3 : ¬ c = '\\') (hc4 : ¬ c = '[') :
    pmStep (fuel + 1) (c :: p) s =
      (match s with
       | [] => false
       | d :: s2 => (c = d : Bool) && pmStep fuel p s2) := by
  simp only [pmStep]
  rw [if_neg hc1, if_neg hc2, if_neg hc3, if_neg hc4]
  rfl

/-- A trailing `*` matches any name without a path separator. -/
theorem pmStep_star :
    ∀ (s : Name) (fuel : Nat), noSlash s = true → s.length + 2 ≤ fuel →
    pmStep fuel ['*'] s = true := by
  intro s
  induction s with
  | nil =>
    intro fuel _ hf
    obtain ⟨f, rfl⟩ : ∃ f, fuel = f + 2 := ⟨fuel - 2, by omega⟩
    rw [pmStep_star_succ]
    rw [pmStep_nil_pat (f + 1) [] (by omega)]
    simp
  | cons d s2 ih =>
    intro fuel h hf
    obtain ⟨f, rfl⟩ : ∃ f, fuel = f + 1 := ⟨fuel - 1, by omega⟩
    rw [pmStep_star_succ]
    simp only [noSlash, List.all_cons, Bool.and_eq_true] at h
    have h2 := ih f h.2 (by simp only [List.length_cons] at hf; omega)
    simp [h2, h.1]

/-- For a key free of pattern metacharacters, matching against the glob
pattern `key ++ "*"` is exactly the prefix test on names without a path
separator. -/
theorem pmStep_prefix :
    ∀ (key : Name) (fuel : Nat) (s : Name),
    metaFree key = true → noSlash s = true →
    key.length + s.length + 2 ≤ fuel →
    pmStep fuel (key ++ ['*']) s = key.isPrefixOf s := by
  intro key
  induction key with
  | nil =>
    intro fuel s _ hs hf
    simp only [List.nil_append]
    rw [pmStep_star s fuel hs (by omega)]
    simp [List.isPrefixOf]
  | cons c k ih =>
    intro fuel s hm hs hf
    obtain ⟨f, rfl⟩ : ∃ f, fuel = f + 1 := ⟨fuel - 1, by omega⟩
    simp only [metaFree, List.all_cons, Bool.and_eq_true] at hm
    obtain ⟨⟨⟨⟨hc1, hc2⟩, hc3⟩, hc4⟩, hk⟩ := hm
    simp only [Bool.not_eq_true', decide_eq_false_iff_not] at hc1 hc2 hc3 hc4
    cases s with
    | nil =>
      rw [List.cons_append, pmStep_lit_succ f c (k ++ ['*']) [] hc1 hc2 hc4 hc3]
      simp [List.isPrefixOf]
    | cons d s2 =>
      rw [List.cons_append, pmStep_lit_succ f c (k ++ ['*']) (d :: s2) hc1 hc2 hc4 hc3]
      simp only [noSlash, List.all_cons, Bool.and_eq_true] at hs
      have hlen : k.length + s2.length + 2 ≤ f := by
        simp only [List.length_cons] at hf; omega
      have hih := ih f s2 hk hs.2 hlen
      show ((c = d : Bool) && pmStep f (k ++ ['*']) s2) = (c :: k).isPrefixOf (d :: s2)
      rw [hih]
      by_cases hcd : c = d <;> simp [List.isPrefixOf, hcd]

/-- The glob pattern built from a metacharacter-free key is
well-formed. -/
theorem pwfStep_metaFree :
    ∀ (key : Name) (fuel : Nat), metaFree key = true →
    key.length + 2 ≤ fuel → pwfStep fuel (key ++ ['*']) = true := by
  intro key
  induction key with
  | nil =>
    intro fuel _ hf
    obtain ⟨f, rfl⟩ : ∃ f, fuel = f + 2 := ⟨fuel - 2, by omega⟩
    simp [pwfStep]
  | cons c k ih =>
    intro fuel hm hf
    obtain ⟨f, rfl⟩ : ∃ f, fuel = f + 1 := ⟨fuel - 1, by omega⟩
    simp only [metaFree, List.all_cons, Bool.and_eq_true] at hm
    obtain ⟨⟨⟨⟨hc1, hc2⟩, hc3⟩, hc4⟩, hk⟩ := hm
    simp only [Bool.not_eq_true', decide_eq_false_iff_not] at hc3 hc4
    simp only [List.cons_append, pwfStep]
    rw [if_neg hc4, if_neg hc3]
    exact ih f hk (by simp only [List.length_cons] at hf; omega)

/-- `patWellFormed` holds of `key ++ "*"` for metacharacter-free keys. -/
theorem patWellFormed_metaFree (key : Name) (hm : metaFree key = true) :
    patWellFormed (key ++ ['*']) = true := by
  unfold patWellFormed
  exact pwfStep_metaFree key _ hm (by simp)

/-- `pureMatch` of `key ++ "*"` is the prefix test, for
metacharacter-free keys and slash-free names. -/
theorem pureMatch_prefix (key s : Name) (hm : metaFree key = true)
    (hs : noSlash s = true) :
    pureMatch (key ++ ['*']) s = key.isPrefixOf s := by
  unfold pureMatch
  exact pmStep_prefix key _ s hm hs (by simp [List.length_append]; omega)

/-- The glob filter of `Dir.Filename` coincides with the prefix filter
on a listing of slash-free names, for a metacharacter-free key. -/
theorem filter_match_eq_filter_prefix (key : Name) (names : List Name)
    (hm : metaFree key = true) (hs : ∀ n ∈ names, noSlash n = true) :
    names.filter (fun n => pureMatch (key ++ ['*']) n) =
      names.filter (fun n => key.isPrefixOf n) :=
  List.filter_congr (fun n hn => pureMatch_prefix key n hm (hs n hn))

/-- `Dir.Filename` for a metacharacter-free key, described through the
prefix filter: it succeeds exactly on a unique prefix match and
otherwise reports the number of prefix matches. -/
theorem filenameGo_prefix_char (st : MaildirState) (key : Name)
    (hm : metaFree key = true)
    (hs : ∀ n ∈ st.cur.map Prod.fst, noSlash n = true) :
    filenameGo st key =
      (match (st.cur.map Prod.fst).filter (fun n => key.isPrefixOf n) with
       | [m] => .ok m
       | ms => .error (.keyError key ms.length)) := by
  unfold filenameGo
  rw [if_pos (patWellFormed_metaFree key hm),
    filter_match_eq_filter_prefix key _ hm hs]

/-- `Dir.Header` never changes the mailbox state. -/
theorem headerGo_snd {E H : Type} (openOk : Name → Bool)
    (readMIME : Content → Except E H) (st : MaildirState) (key : Name) :
    (headerGo openOk readMIME st key).2 = st := by
  unfold headerGo
  repeat (first | rfl | split)

/-- `Dir.Message` never changes the mailbox state. -/
theorem messageGo_snd {E M : Type} (openOk readOk : Name → Bool)
    (readMessage : Content → Except E M) (st : MaildirState) (key : Name) :
    (messageGo openOk readOk readMessage st key).2 = st := by
  unfold messageGo
  repeat (first | rfl | split)

/-- The result component of `Dir.Header`, with the state projected
away. -/
theorem headerGo_fst {E H : Type} (openOk : Name → Bool)
    (readMIME : Content → Except E H) (st : MaildirState) (key : Name) :
    (headerGo openOk readMIME st key).1 =
      (match filenameGo st key with
       | .error e => .error (.file e)
       | .ok n =>
         if openOk n then
           match lookupFile st.cur n with
           | none => .error .io
           | some content =>
             match readMIME content with
             | .error e => .error (.parse e)
             | .ok h => .ok h
         else .error .io) := by
  unfold headerGo
  repeat (first | rfl | split)

/-- The result component of `Dir.Message`, with the state projected
away. -/
theorem messageGo_fst {E M : Type} (openOk readOk : Name → Bool)
    (readMessage : Content → Except E M) (st : MaildirState) (key : Name) :
    (messageGo openOk readOk readMessage st key).1 =
      (match filenameGo st key with
       | .error e => .error (.file e)
       | .ok n =>
         if openOk n then
           match lookupFile st.cur n with
           | none => .error .io
           | some content =>
             if readOk n then
               match readMessage content with
               | .error e => .error (.parse e)
               | .ok m => .ok m
             else .error .ioRead
         else .error .io) := by
  unfold messageGo
  repeat (first | rfl | split)

/-- `Dir.Filename` reads only the `cur` listing. -/
theorem filenameGo_cur_only (st1 st2 : MaildirState) (key : Name)
    (h : st1.cur = st2.cur) : filenameGo st1 key = filenameGo st2 key := by
  unfold filenameGo
  rw [h]

/-- `Dir.Keys` reads only the `cur` listing. -/
theorem keysGo_cur_only (st1 st2 : MaildirState) (h : st1.cur = st2.cur) :
    keysGo st1 = keysGo st2 := by
  unfold keysGo
  rw [h]

/-! ## Claims -/

/-- **C1**, counterexample to the claim as stated: in a mailbox whose
`new` holds entries `a` and `b`, with the rename of `a` failing and the
rename of `b` succeeding, `Unseen` returns the key sequence
`[a, b]` — the failed entry's key is *not* excluded — and the returned
error is nil, not the rename error; the failed entry merely stays in
`new`. -/
theorem unseen_rename_error_counterexample :
    unseen ':' (fun n => !(n == nm "a"))
        ⟨[], [(nm "a", [1]), (nm "b", [2])], []⟩ =
      some ⟨[nm "a", nm "b"], none, ⟨[], [(nm "a", [1])], [(nm "b:2,S", [2])]⟩⟩ := by
  decide

/-- **C1**, amended: if the rename of a non-hidden entry fails during
the scan, `Unseen` still appends that entry's key to the returned
sequence, continues scanning the remaining entries, leaves the entry in
`new`, and returns a nil error — the rename failure is silently
discarded (the source ignores the value of `os.Rename`).  Hypotheses:
entry names are non-empty (guaranteed by `Readdirnames`) and every
non-hidden entry name contains a non-separator character (otherwise the
key extraction panics, see C9). -/
theorem unseen_rename_failure_silently_ignored
    (sep : Char) (ro : Name → Bool) (st : MaildirState)
    (h1 : ∀ p ∈ st.new, p.1 ≠ [])
    (h2 : ∀ p ∈ st.new, hidden p.1 = false → (goKey sep p.1).isSome) :
    ∃ r, unseen sep ro st = some r ∧
      r.err = none ∧
      r.keys = (st.new.filter (fun p => !hidden p.1)).map
        (fun p => (goKey sep p.1).getD []) ∧
      r.state.new = st.new.filter (fun p => hidden p.1 || !ro p.1) ∧
      ∀ p ∈ st.new, hidden p.1 = false → ro p.1 = false →
        (goKey sep p.1).getD [] ∈ r.keys ∧ p ∈ r.state.new := by
  have hl := unseenLoop_eq sep ro st.new h1 h2
  refine ⟨⟨(st.new.filter (fun p => !hidden p.1)).map
        (fun p => (goKey sep p.1).getD []),
      none,
      { tmp := st.tmp
        new := st.new.filter (fun p => hidden p.1 || !ro p.1)
        cur := st.cur ++ (st.new.filter (fun p => !hidden p.1 && ro p.1)).map
          (fun p => (p.1 ++ sep :: seenSuffix, p.2)) }⟩,
    ?_, rfl, rfl, rfl, ?_⟩
  · unfold unseen
    rw [hl]
    rfl
  · intro p hp hh hro
    constructor
    · exact List.mem_map_of_mem _ (List.mem_filter.mpr ⟨hp, by simp [hh]⟩)
    · exact List.mem_filter.mpr ⟨hp, by simp [hh, hro]⟩

/-- **C1**, witness: the amended theorem applied to a concrete
two-entry mailbox with one failing rename. -/
theorem unseen_rename_failure_silently_ignored_witness :
    ∃ r, unseen ':' (fun n => !(n == nm "x"))
        ⟨[], [(nm "x", [0]), (nm "y", [1])], []⟩ = some r ∧ r.err = none :=
  Exists.elim
    (unseen_rename_failure_silently_ignored ':' (fun n => !(n == nm "x"))
      ⟨[], [(nm "x", [0]), (nm "y", [1])], []⟩ (by decide) (by decide))
    (fun r hr => ⟨r, hr.1, hr.2.1⟩)

/-- **C2**, counterexample to the claim as stated: a `new` directory
holding the two non-hidden entries `a` and `:::` (every rename would
succeed) makes `Unseen` panic at the key-extraction of `:::` — the call
aborts and does not return two keys. -/
theorem unseen_all_separator_entry_counterexample :
    unseen ':' (fun _ => true) ⟨[], [(nm "a", [1]), (nm ":::", [2])], []⟩ =
      none := by
  decide

/-- **C2**, amended: on a mailbox whose `new` holds K non-hidden
entries, each with a non-empty name containing at least one
non-separator character, a call to `Unseen` in which every rename
succeeds returns exactly the K keys in filesystem enumeration order and
leaves no non-hidden entry in `new`; any immediately following call
returns zero keys. -/
theorem unseen_single_scan_moves_all
    (sep : Char) (st : MaildirState)
    (h1 : ∀ p ∈ st.new, p.1 ≠ [])
    (h2 : ∀ p ∈ st.new, hidden p.1 = false → (goKey sep p.1).isSome) :
    ∃ r, unseen sep (fun _ => true) st = some r ∧
      r.keys = (st.new.filter (fun p => !hidden p.1)).map
        (fun p => (goKey sep p.1).getD []) ∧
      r.keys.length = (st.new.filter (fun p => !hidden p.1)).length ∧
      r.state.new = st.new.filter (fun p => hidden p.1) ∧
      (∀ p ∈ r.state.new, hidden p.1 = true) ∧
      ∀ ro2 : Name → Bool, ∃ r2, unseen sep ro2 r.state = some r2 ∧
        r2.keys = [] := by
  have hl := unseenLoop_eq sep (fun _ => true) st.new h1 h2
  simp only [Bool.not_true, Bool.or_false, Bool.and_true] at hl
  refine ⟨⟨(st.new.filter (fun p => !hidden p.1)).map
        (fun p => (goKey sep p.1).getD []),
      none,
      { tmp := st.tmp
        new := st.new.filter (fun p => hidden p.1)
        cur := st.cur ++ (st.new.filter (fun p => !hidden p.1)).map
          (fun p => (p.1 ++ sep :: seenSuffix, p.2)) }⟩,
    ?_, rfl, by rw [List.length_map], rfl, ?_, ?_⟩
  · unfold unseen
    rw [hl]
    rfl
  · intro p hp
    exact (List.mem_filter.mp hp).2
  · intro ro2
    have hsub : ∀ p ∈ st.new.filter (fun p => hidden p.1), p ∈ st.new :=
      fun p hp => (List.mem_filter.mp hp).1
    have hl2 := unseenLoop_eq sep ro2 (st.new.filter (fun p => hidden p.1))
      (fun p hp => h1 p (hsub p hp))
      (fun p hp hcontra => by
        have := (List.mem_filter.mp hp).2
        rw [hcontra] at this
        exact absurd this (by simp))
    have hnil : (st.new.filter (fun p => hidden p.1)).filter
        (fun p => !hidden p.1) = [] := by
      rw [List.filter_eq_nil_iff]
      intro p hp
      simp [(List.mem_filter.mp hp).2]
    refine ⟨⟨((st.new.filter (fun p => hidden p.1)).filter
          (fun p => !hidden p.1)).map (fun p => (goKey sep p.1).getD []),
        none,
        { tmp := st.tmp
          new := (st.new.filter (fun p => hidden p.1)).filter
            (fun p => hidden p.1 || !ro2 p.1)
          cur := (st.cur ++ (st.new.filter (fun p => !hidden p.1)).map
              (fun p => (p.1 ++ sep :: seenSuffix, p.2))) ++
            ((st.new.filter (fun p => hidden p.1)).filter
              (fun p => !hidden p.1 && ro2 p.1)).map
              (fun p => (p.1 ++ sep :: seenSuffix, p.2)) }⟩, ?_, ?_⟩
    · unfold unseen
      rw [hl2]
      rfl
    · show ((st.new.filter (fun p => hidden p.1)).filter
          (fun p => !hidden p.1)).map (fun p => (goKey sep p.1).getD []) = []
      rw [hnil]
      rfl

/-- **C2**, witness: the amended theorem applied to a mailbox with one
ordinary and one hidden entry. -/
theorem unseen_single_scan_moves_all_witness :
    ∃ r, unseen ':' (fun _ => true)
        ⟨[], [(nm "a", [3]), (nm ".h", [4])], []⟩ = some r ∧
      r.keys.length = ([((nm "a", ([3] : Content))), (nm ".h", [4])].filter
        (fun p => !hidden p.1)).length :=
  Exists.elim
    (unseen_single_scan_moves_all ':'
      ⟨[], [(nm "a", [3]), (nm ".h", [4])], []⟩ (by decide) (by decide))
    (fun r hr => ⟨r, hr.1, hr.2.2.1⟩)

/-- **C3**: the code contradicts the claim — `Keys` splits filenames on
the literal `':'`, not on the configured `Separator`.  With `Separator`
set to `';'`, `Unseen` files a message under `cur/k;2,S`, whose key (the
substring before the first `';'`) is `k`; `Keys` nonetheless returns the
whole name `k;2,S`, since it looks for `':'`. -/
theorem keys_splits_on_literal_colon :
    unseen ';' (fun _ => true) ⟨[], [(nm "k", [1])], []⟩ =
      some ⟨[nm "k"], none, ⟨[], [], [(nm "k;2,S", [1])]⟩⟩ ∧
    keysGo ⟨[], [], [(nm "k;2,S", [1])]⟩ = some [nm "k;2,S"] ∧
    nm "k;2,S" ≠ nm "k" := by
  decide

/-- **C4**, counterexample to the claim as stated, for keys containing
pattern metacharacters: the key `[` makes `Filename` return the glob
`ErrBadPattern`, not a `KeyError`; and for the key `?` with `cur`
holding only `a:2,S` — a file *not* matching the key, so N = 0 —
`Filename` succeeds (the `?` is interpreted by the glob) instead of
failing with `KeyError{?, 0}`. -/
theorem filename_metacharacter_counterexample :
    filenameGo ⟨[], [], [(nm "x:2,S", [])]⟩ (nm "[") = .error .badPattern ∧
    filenameGo ⟨[], [], [(nm "a:2,S", [])]⟩ (nm "?") = .ok (nm "a:2,S") ∧
    (nm "?").isPrefixOf (nm "a:2,S") = false := by
  decide

/-- **C4**, amended: for every key free of the glob metacharacters
`*?[\` and every `cur` listing (of slash-free names, as the filesystem
guarantees) in which the number N of files whose names start with the
key is not exactly one, `Filename` fails with `KeyError` carrying that
key and N. -/
theorem filename_key_error_on_non_unique_match
    (st : MaildirState) (key : Name)
    (hm : metaFree key = true)
    (hs : ∀ n ∈ st.cur.map Prod.fst, noSlash n = true)
    (hn : ((st.cur.map Prod.fst).filter (fun n => key.isPrefixOf n)).length ≠ 1) :
    filenameGo st key = .error (.keyError key
      ((st.cur.map Prod.fst).filter (fun n => key.isPrefixOf n)).length) := by
  rw [filenameGo_prefix_char st key hm hs]
  generalize (st.cur.map Prod.fst).filter (fun n => key.isPrefixOf n) = l at hn ⊢
  cases l with
  | nil => rfl
  | cons a t =>
    cases t with
    | nil => exact absurd rfl hn
    | cons b t2 => rfl

/-- **C4**, witness: the amended theorem applied to a key with zero
prefix matches (N = 0) and to a key with two prefix matches (N = 2). -/
theorem filename_key_error_on_non_unique_match_witness :
    filenameGo ⟨[], [], [(nm "b:2,S", [])]⟩ (nm "a") =
      .error (.keyError (nm "a") 0) ∧
    filenameGo ⟨[], [], [(nm "k:1", []), (nm "k:2", [])]⟩ (nm "k") =
      .error (.keyError (nm "k") 2) :=
  ⟨filename_key_error_on_non_unique_match ⟨[], [], [(nm "b:2,S", [])]⟩
      (nm "a") (by decide) (by decide) (by decide),
    filename_key_error_on_non_unique_match ⟨[], [], [(nm "k:1", []), (nm "k:2", [])]⟩
      (nm "k") (by decide) (by decide) (by decide)⟩

/-- **C5**, counterexample to the claim as stated: `cur` holds the two
files `a:2,S` (key `a`) and `ab:2,S` (key `ab`), so exactly one file
has key `a`; yet `Filename(a)` fails with `KeyError{a, 2}`, because the
glob `a*` also matches the file of the key `ab`, of which `a` is a
proper prefix. -/
theorem filename_prefix_key_counterexample :
    goKey ':' (nm "a:2,S") = some (nm "a") ∧
    goKey ':' (nm "ab:2,S") = some (nm "ab") ∧
    filenameGo ⟨[], [], [(nm "a:2,S", []), (nm "ab:2,S", [])]⟩ (nm "a") =
      .error (.keyError (nm "a") 2) := by
  decide

/-- **C5**, amended: for every key free of glob metacharacters, if
exactly one file name in `cur` (names being slash-free) has the key as
a prefix, `Filename` succeeds and returns that file. -/
theorem filename_unique_prefix_match
    (st : MaildirState) (key m : Name)
    (hm : metaFree key = true)
    (hs : ∀ n ∈ st.cur.map Prod.fst, noSlash n = true)
    (hu : (st.cur.map Prod.fst).filter (fun n => key.isPrefixOf n) = [m]) :
    filenameGo st key = .ok m := by
  rw [filenameGo_prefix_char st key hm hs, hu]

/-- **C5**, witness: the amended theorem applied to a concrete
single-match listing. -/
theorem filename_unique_prefix_match_witness :
    filenameGo ⟨[], [], [(nm "b:2,S", []), (nm "a:2,S", [])]⟩ (nm "a") =
      .ok (nm "a:2,S") :=
  filename_unique_prefix_match ⟨[], [], [(nm "b:2,S", []), (nm "a:2,S", [])]⟩
    (nm "a") (nm "a:2,S") (by decide) (by decide) (by decide)

/-- **C6**, counterexample to the claim as stated: the entry `a:b` in
`new` (whose key is `a`, the portion before the first separator) is
renamed to `cur/a:b:2,S` — built from the *full* entry name — and not
to `cur/a:2,S` as the claim's `<key><separator>2,S` demands. -/
theorem unseen_rename_target_counterexample :
    unseen ':' (fun _ => true) ⟨[], [(nm "a:b", [5])], []⟩ =
      some ⟨[nm "a"], none, ⟨[], [], [(nm "a:b:2,S", [5])]⟩⟩ ∧
    nm "a:b:2,S" ≠ nm "a" ++ ':' :: seenSuffix := by
  decide

/-- **C6**, amended: `Unseen` renames each successfully-moved
non-hidden entry `n` of `new` to `cur/<n><separator>2,S`, using the full
entry name `n`; when `n` contains no separator character — the normal
maildir state, since `new` entries carry no flag suffix — this
coincides with `<key><separator>2,S`, because the key of such a name is
the name itself. -/
theorem unseen_rename_appends_full_name
    (sep : Char) (ro : Name → Bool) (st : MaildirState)
    (h1 : ∀ p ∈ st.new, p.1 ≠ [])
    (h2 : ∀ p ∈ st.new, hidden p.1 = false → (goKey sep p.1).isSome) :
    ∃ r, unseen sep ro st = some r ∧
      r.state.cur = st.cur ++
        (st.new.filter (fun p => !hidden p.1 && ro p.1)).map
          (fun p => (p.1 ++ sep :: seenSuffix, p.2)) ∧
      ∀ n : Name, n ≠ [] → (∀ c ∈ n, c ≠ sep) →
        n ++ sep :: seenSuffix = (goKey sep n).getD [] ++ sep :: seenSuffix := by
  have hl := unseenLoop_eq sep ro st.new h1 h2
  refine ⟨⟨(st.new.filter (fun p => !hidden p.1)).map
        (fun p => (goKey sep p.1).getD []),
      none,
      { tmp := st.tmp
        new := st.new.filter (fun p => hidden p.1 || !ro p.1)
        cur := st.cur ++ (st.new.filter (fun p => !hidden p.1 && ro p.1)).map
          (fun p => (p.1 ++ sep :: seenSuffix, p.2)) }⟩,
    ?_, rfl, ?_⟩
  · unfold unseen
    rw [hl]
    rfl
  · intro n hn hsep
    rw [goKey_no_sep sep n hn hsep]
    rfl

/-- **C6**, witness: the amended theorem applied to a one-entry
mailbox. -/
theorem unseen_rename_appends_full_name_witness :
    ∃ r, unseen ':' (fun _ => true) ⟨[], [(nm "m", [9])], []⟩ = some r ∧
      r.state.cur = ([] : List (Name × Content)) ++
        ([((nm "m", ([9] : Content)))].filter
          (fun p => !hidden p.1 && (fun _ => true) p.1)).map
          (fun p => (p.1 ++ ':' :: seenSuffix, p.2)) :=
  Exists.elim
    (unseen_rename_appends_full_name ':' (fun _ => true)
      ⟨[], [(nm "m", [9])], []⟩ (by decide) (by decide))
    (fun r hr => ⟨r, hr.1, hr.2.1⟩)

/-- **C7** (the delivery session is modelled from the spec, its code
being absent from `src/`): for every byte payload P and every
well-formed key — non-empty, not dot-initial, separator-free,
metacharacter-free and slash-free, as the spec's KeyGenerator
guarantees — delivering P into an empty mailbox, transitioning it with
`Unseen`, resolving the resulting key with `Filename` and reading the
file back yields exactly P. -/
theorem delivery_roundtrip
    (P : Content) (key : Name) (sep : Char)
    (h0 : key ≠ [])
    (hh : hidden key = false)
    (hsep : ∀ c ∈ key, c ≠ sep)
    (hm : metaFree key = true)
    (hns : noSlash key = true)
    (hsl : ¬ sep = '/') :
    ∃ st1 r, makeDelivery key P ⟨[], [], []⟩ = .ok st1 ∧
      unseen sep (fun _ => true) st1 = some r ∧
      r.keys = [key] ∧
      filenameGo r.state key = .ok (key ++ sep :: seenSuffix) ∧
      lookupFile r.state.cur (key ++ sep :: seenSuffix) = some P := by
  have hd1 : newDelivery key ⟨[], [], []⟩ = .ok ⟨[(key, [])], [], []⟩ := by
    unfold newDelivery
    simp
  have hd2 : deliveryWrite key P ⟨[(key, [])], [], []⟩ =
      .ok ⟨[(key, P)], [], []⟩ := by
    unfold deliveryWrite
    simp [lookupFile]
  have hd3 : deliveryClose key ⟨[(key, P)], [], []⟩ =
      .ok ⟨[], [(key, P)], []⟩ := by
    unfold deliveryClose
    simp [lookupFile]
  have hmd : makeDelivery key P ⟨[], [], []⟩ = .ok ⟨[], [(key, P)], []⟩ := by
    unfold makeDelivery
    rw [hd1]
    show (match deliveryWrite key P ⟨[(key, [])], [], []⟩ with
      | .error e => (.error e : Except Unit MaildirState)
      | .ok st2 => deliveryClose key st2) = .ok ⟨[], [(key, P)], []⟩
    rw [hd2]
    exact hd3
  have hksome := goKey_no_sep sep key h0 hsep
  have hl := unseenLoop_eq sep (fun _ => true) [(key, P)]
    (by
      intro p hp
      rw [List.mem_singleton] at hp
      subst hp
      exact h0)
    (by
      intro p hp _
      rw [List.mem_singleton] at hp
      subst hp
      simp [hksome])
  simp only [List.filter_cons, List.filter_nil, List.map_cons, List.map_nil,
    hh, hksome, Bool.not_false, Bool.not_true, Bool.and_true, Bool.or_false,
    if_pos, Option.getD_some] at hl
  have hu : unseen sep (fun _ => true) ⟨[], [(key, P)], []⟩ =
      some ⟨[key], none, ⟨[], [], [(key ++ sep :: seenSuffix, P)]⟩⟩ := by
    unfold unseen
    rw [hl]
    rfl
  have hnsall : noSlash (key ++ sep :: seenSuffix) = true := by
    simp only [noSlash, List.all_append, List.all_cons, Bool.and_eq_true] at hns ⊢
    exact ⟨hns, by simp [hsl], by decide⟩
  have hpm : key.isPrefixOf (key ++ sep :: seenSuffix) = true :=
    List.isPrefixOf_iff_prefix.mpr (List.prefix_append key (sep :: seenSuffix))
  have hf : filenameGo ⟨[], [], [(key ++ sep :: seenSuffix, P)]⟩ key =
      .ok (key ++ sep :: seenSuffix) := by
    rw [filenameGo_prefix_char _ key hm
      (by
        intro n hn
        simp only [List.map_cons, List.map_nil, List.mem_singleton] at hn
        subst hn
        exact hnsall)]
    simp [List.filter_cons, hpm]
  refine ⟨⟨[], [(key, P)], []⟩,
    ⟨[key], none, ⟨[], [], [(key ++ sep :: seenSuffix, P)]⟩⟩,
    hmd, hu, rfl, hf, ?_⟩
  show lookupFile [(key ++ sep :: seenSuffix, P)] (key ++ sep :: seenSuffix) =
    some P
  unfold lookupFile
  simp

/-- **C7**, witness: the round-trip theorem applied to the payload
`[7, 8]`, the key `k` and the default separator. -/
theorem delivery_roundtrip_witness :
    ∃ st1 r, makeDelivery (nm "k") [7, 8] ⟨[], [], []⟩ = .ok st1 ∧
      unseen ':' (fun _ => true) st1 = some r ∧
      r.keys = [nm "k"] ∧
      filenameGo r.state (nm "k") = .ok (nm "k" ++ ':' :: seenSuffix) ∧
      lookupFile r.state.cur (nm "k" ++ ':' :: seenSuffix) = some [7, 8] :=
  delivery_roundtrip [7, 8] (nm "k") ':' (by decide) (by decide) (by decide)
    (by decide) (by decide) (by decide)

/-- **C8**: `Header` and `Message` resolve the key through `Filename`
and return every failure to the caller — the `Filename` error (a
`KeyError` or the glob error) verbatim wrapped, an I/O error when the
file cannot be opened (or, for `Message`, read), and the collaborator's
parse error — while never mutating the mailbox state; a successful
`Header` moreover certifies that every step succeeded. -/
theorem header_message_propagate_errors {E H M : Type}
    (openOk readOk : Name → Bool) (readMIME : Content → Except E H)
    (readMessage : Content → Except E M) (st : MaildirState) (key : Name) :
    (headerGo openOk readMIME st key).2 = st ∧
    (messageGo openOk readOk readMessage st key).2 = st ∧
    (∀ e, filenameGo st key = .error e →
      (headerGo openOk readMIME st key).1 = .error (.file e) ∧
      (messageGo openOk readOk readMessage st key).1 = .error (.file e)) ∧
    (∀ n, filenameGo st key = .ok n → openOk n = false →
      (headerGo openOk readMIME st key).1 = .error .io ∧
      (messageGo openOk readOk readMessage st key).1 = .error .io) ∧
    (∀ n c e, filenameGo st key = .ok n → openOk n = true →
      lookupFile st.cur n = some c → readMIME c = .error e →
      (headerGo openOk readMIME st key).1 = .error (.parse e)) ∧
    (∀ n c, filenameGo st key = .ok n → openOk n = true →
      lookupFile st.cur n = some c → readOk n = false →
      (messageGo openOk readOk readMessage st key).1 = .error .ioRead) ∧
    (∀ n c e, filenameGo st key = .ok n → openOk n = true →
      lookupFile st.cur n = some c → readOk n = true →
      readMessage c = .error e →
      (messageGo openOk readOk readMessage st key).1 = .error (.parse e)) ∧
    (∀ h, (headerGo openOk readMIME st key).1 = .ok h →
      ∃ n c, filenameGo st key = .ok n ∧ openOk n = true ∧
        lookupFile st.cur n = some c ∧ readMIME c = .ok h) := by
  refine ⟨headerGo_snd openOk readMIME st key,
    messageGo_snd openOk readOk readMessage st key, ?_, ?_, ?_, ?_, ?_, ?_⟩
  · intro e he
    constructor <;> simp [headerGo, messageGo, he]
  · intro n hn ho
    constructor <;> simp [headerGo, messageGo, hn, ho]
  · intro n c e hn ho hc hr
    simp [headerGo, hn, ho, hc, hr]
  · intro n c hn ho hc hr
    simp [messageGo, hn, ho, hc, hr]
  · intro n c e hn ho hc hro hr
    simp [messageGo, hn, ho, hc, hro, hr]
  · intro h hok
    rw [headerGo_fst] at hok
    split at hok
    next e heq => exact absurd hok (by simp)
    next n heq =>
      split at hok
      · split at hok
        next hl => exact absurd hok (by simp)
        next c hl =>
          split at hok
          next e2 hr => exact absurd hok (by simp)
          next h2 hr =>
            simp only [Except.ok.injEq] at hok
            subst hok
            exact ⟨n, c, heq, by assumption, hl, hr⟩
      · exact absurd hok (by simp)

/-- **C8**, witness: with a resolvable key but a failing `os.Open`,
both `Header` and `Message` return the I/O error. -/
theorem header_message_propagate_errors_witness :
    (headerGo (fun _ => false)
        (fun _ => (.ok () : Except Unit Unit))
        ⟨[], [], [(nm "a:2,S", [])]⟩ (nm "a")).1 = .error .io ∧
    (messageGo (fun _ => false) (fun _ => true)
        (fun _ => (.ok () : Except Unit Unit))
        ⟨[], [], [(nm "a:2,S", [])]⟩ (nm "a")).1 = .error .io :=
  (header_message_propagate_errors (fun _ => false) (fun _ => true)
      (fun _ => (.ok () : Except Unit Unit))
      (fun _ => (.ok () : Except Unit Unit))
      ⟨[], [], [(nm "a:2,S", [])]⟩ (nm "a")).2.2.2.1
    (nm "a:2,S") (by decide) rfl

/-- **C9**: the key extraction of `Keys` and of `Unseen` is *not*
total — the code indexes `split[0]` into the field list produced by
`strings.FieldsFunc`, which is empty for a (non-empty, non-hidden)
filename consisting entirely of separator characters, so both functions
abort with an index-out-of-range panic on the entry `:::` instead of
returning the empty key or an error. -/
theorem key_extraction_panic_on_all_separator_name :
    goKey ':' (nm ":::") = none ∧
    keysGo ⟨[], [], [(nm ":::", [])]⟩ = none ∧
    unseen ':' (fun _ => true) ⟨[], [(nm ":::", [])], []⟩ = none := by
  decide

/-- **C10**: `Keys`, `Filename`, `Header` and `Message` touch only the
`cur` subdirectory: each returns the mailbox state unchanged, and each
result is identical on any two mailbox states that agree on `cur` —
regardless of the contents of `new` and `tmp`. -/
theorem reads_touch_only_cur {E H M : Type}
    (openOk readOk : Name → Bool) (readMIME : Content → Except E H)
    (readMessage : Content → Except E M) (st1 st2 : MaildirState) (key : Name)
    (hcur : st1.cur = st2.cur) :
    (keysOp st1).2 = st1 ∧ (filenameOp st1 key).2 = st1 ∧
    (headerGo openOk readMIME st1 key).2 = st1 ∧
    (messageGo openOk readOk readMessage st1 key).2 = st1 ∧
    (keysOp st1).1 = (keysOp st2).1 ∧
    (filenameOp st1 key).1 = (filenameOp st2 key).1 ∧
    (headerGo openOk readMIME st1 key).1 = (headerGo openOk readMIME st2 key).1 ∧
    (messageGo openOk readOk readMessage st1 key).1 =
      (messageGo openOk readOk readMessage st2 key).1 := by
  refine ⟨rfl, rfl, headerGo_snd openOk readMIME st1 key,
    messageGo_snd openOk readOk readMessage st1 key,
    keysGo_cur_only st1 st2 hcur, filenameGo_cur_only st1 st2 key hcur,
    ?_, ?_⟩
  · rw [headerGo_fst, headerGo_fst, filenameGo_cur_only st1 st2 key hcur, hcur]
  · rw [messageGo_fst, messageGo_fst, filenameGo_cur_only st1 st2 key hcur, hcur]

/-- **C10**, witness: two states agreeing on `cur` but differing in
`tmp` and `new` give identical read results, and the state comes back
unchanged. -/
theorem reads_touch_only_cur_witness :
    (keysOp ⟨[(nm "t", [])], [(nm "n", [])], [(nm "a:2,S", [3])]⟩).1 =
      (keysOp ⟨[], [], [(nm "a:2,S", [3])]⟩).1 ∧
    (headerGo (fun _ => true) (fun c => (.ok c : Except Unit Content))
        ⟨[(nm "t", [])], [(nm "n", [])], [(nm "a:2,S", [3])]⟩ (nm "a")).2 =
      ⟨[(nm "t", [])], [(nm "n", [])], [(nm "a:2,S", [3])]⟩ :=
  ⟨(reads_touch_only_cur (fun _ => true) (fun _ => true)
      (fun c => (.ok c : Except Unit Content))
      (fun c => (.ok c : Except Unit Content))
      ⟨[(nm "t", [])], [(nm "n", [])], [(nm "a:2,S", [3])]⟩
      ⟨[], [], [(nm "a:2,S", [3])]⟩ (nm "a") rfl).2.2.2.2.1,
    (reads_touch_only_cur (fun _ => true) (fun _ => true)
      (fun c => (.ok c : Except Unit Content))
      (fun c => (.ok c : Except Unit Content))
      ⟨[(nm "t", [])], [(nm "n", [])], [(nm "a:2,S", [3])]⟩
      ⟨[], [], [(nm "a:2,S", [3])]⟩ (nm "a") rfl).2.2.1⟩

end Maildir
